import Mathlib

/-!
Shallow embedding of the email-extraction core of the `srcubmail` extension:
`src/utils/emailUtils.ts` (scan regex, strict validation regex, duplicate
removal) and the clipboard utilities (`formatEmailsForClipboard`,
`copyToClipboard`, `copyEmailsToClipboard`).

Strings are modelled as Lean `String`s; character-level work happens on
`List Char` via `String.data`.  JavaScript regular-expression matching is
embedded by hand for the two concrete patterns the code uses; the comments
at each definition record how the deterministic Lean function is derived
from the backtracking semantics of the pattern.
-/

namespace Srcubmail

/-! ### Character classes of the two regexes

`EMAIL_REGEX  = /([a-zA-Z0-9._%+-]+@[a-zA-Z0-9.-]+\.[a-zA-Z]{2,})/gi`
`STRICT_EMAIL_REGEX = /^[a-zA-Z0-9._%+-]+@[a-zA-Z0-9.-]+\.[a-zA-Z]{2,}$/`

Both patterns use the same three character classes (the `i` flag is
irrelevant because each class already contains both cases). -/

/-- Local-part class `[a-zA-Z0-9._%+-]`. -/
def isL (c : Char) : Bool :=
  c.isAlpha || c.isDigit || c = '.' || c = '_' || c = '%' || c = '+' || c = '-'

/-- Domain class `[a-zA-Z0-9.-]`. -/
def isD (c : Char) : Bool :=
  c.isAlpha || c.isDigit || c = '.' || c = '-'

/-! ### JavaScript string primitives used by the code -/

/-- The character set matched by JavaScript `String.prototype.trim`
(ECMAScript WhiteSpace and LineTerminator code points). -/
def jsWhitespace : List Char :=
  ['\t', '\n', '\u000B', '\u000C', '\r', '\u0020', '\u00A0', '\u1680',
   '\u2000', '\u2001', '\u2002', '\u2003', '\u2004', '\u2005', '\u2006',
   '\u2007', '\u2008', '\u2009', '\u200A', '\u2028', '\u2029', '\u202F',
   '\u205F', '\u3000', '\uFEFF']

def isJsSpace (c : Char) : Bool :=
  decide (c ∈ jsWhitespace)

/-- `s.trim()`: removes `jsWhitespace` characters from both ends. -/
def jsTrimList (l : List Char) : List Char :=
  ((l.dropWhile isJsSpace).reverse.dropWhile isJsSpace).reverse

/-- `s.toLowerCase()` on the character lists produced here.  All characters
the email code feeds through it are ASCII (they are matched by the ASCII
classes above), where JavaScript `toLowerCase` coincides with
`Char.toLower`. -/
def jsToLowerList (l : List Char) : List Char :=
  l.map Char.toLower

/-! ### The strict anchored regex, `STRICT_EMAIL_REGEX.test`

Pattern: `^L+@D+\.T{2,}$` with `L = isL`, `D = isD`, `T = isAlpha`.

Derivation of the deterministic matcher from backtracking semantics:
`'@' ∉ L`, so however much `L+` gives back while backtracking, the next
character can never become `'@'` unless `L+` consumed exactly the maximal
`L`-run; hence the local part is forced to be `takeWhile isL`.  The `$`
anchor makes the rest equivalent to: there is a split index `k` of the
domain with a nonempty all-`D` prefix of length `k`, a `'.'` at `k`, and
an all-alphabetic suffix of length at least 2 after it. -/

/-- One candidate split of the domain: `d` before the dot, `rest` from the
dot on.  Mirrors `D+\.T{2,}$` for that split. -/
def domSplitOk (d rest : List Char) : Bool :=
  match rest with
  | c :: t =>
      c == '.' && !d.isEmpty && d.all isD && t.all Char.isAlpha &&
        decide (2 ≤ t.length)
  | [] => false

/-- `D+\.T{2,}$` over the whole list `dom`. -/
def domainMatch (dom : List Char) : Bool :=
  (List.range dom.length).any fun k => domSplitOk (dom.take k) (dom.drop k)

/-- `STRICT_EMAIL_REGEX.test` on a character list. -/
def strictEmailMatch (l : List Char) : Bool :=
  match l.dropWhile isL with
  | c :: rest => c == '@' && !(l.takeWhile isL).isEmpty && domainMatch rest
  | [] => false

/-- `isValidEmail` from `emailUtils.ts`:
`if (!email || typeof email !== 'string') return false;`
`return STRICT_EMAIL_REGEX.test(email.trim());`
For a string argument, `!email` is true exactly for the empty string. -/
def isValidEmail (email : String) : Bool :=
  if email = "" then false
  else strictEmailMatch (jsTrimList email.data)

/-! ### The global scan, `htmlContent.match(EMAIL_REGEX)`

`match` with the `g` flag collects all non-overlapping matches, scanning
left to right and resuming after the end of each match.  At a given start
position the backtracking engine behaves deterministically for this
pattern:
* `L+@`: as above, the `L`-run is forced to be maximal and the next
  character must be `'@'`.
* `D+\.T{2,}`: `D+` starts at the maximal `D`-run length and gives back
  one character at a time; for each candidate length `d` the engine needs
  a `'.'` next and then a greedy run of at least two letters (nothing
  follows in the pattern, so the letter run is maximal).  The first
  (largest) `d` that succeeds wins. -/

/-- Try domain lengths `d, d-1, …, 1`.  `rest2` is the text after `'@'`;
on success returns the number of characters matched after the `'@'`. -/
def tryDom (rest2 : List Char) : Nat → Option Nat
  | 0 => none
  | d + 1 =>
    match rest2.drop (d + 1) with
    | '.' :: after =>
        let t := after.takeWhile Char.isAlpha
        if 2 ≤ t.length then some ((d + 1) + 1 + t.length)
        else tryDom rest2 d
    | _ => tryDom rest2 d

/-- Attempt a match of `EMAIL_REGEX` anchored at the head of `l`; returns
the length of the match. -/
def matchAt (l : List Char) : Option Nat :=
  let loc := l.takeWhile isL
  if loc.isEmpty then none
  else
    match l.dropWhile isL with
    | '@' :: rest2 =>
        (tryDom rest2 (rest2.takeWhile isD).length).map
          fun m => loc.length + 1 + m
    | _ => none

/-- Left-to-right global scan; every step consumes at least one character,
so `fuel = l.length` suffices. -/
def scanAux : Nat → List Char → List (List Char)
  | 0, _ => []
  | _ + 1, [] => []
  | fuel + 1, c :: rest =>
    match matchAt (c :: rest) with
    | some n => (c :: rest).take n :: scanAux fuel ((c :: rest).drop n)
    | none => scanAux fuel rest

/-- `htmlContent.match(EMAIL_REGEX)` (the list of matched substrings;
JavaScript returns `null` instead of `[]`, modelled by the empty list). -/
def scanEmails (l : List Char) : List (List Char) :=
  scanAux l.length l

/-! ### Deduplication

`[...new Set(xs)]` keeps the first occurrence of each exact string;
`removeDuplicateEmails` keeps the first occurrence of each
lower-cased-and-trimmed key.  Both are instances of keyed first-occurrence
filtering. -/

def dedupeByAux {α β : Type} [DecidableEq β] (key : α → β)
    (seen : List β) : List α → List α
  | [] => []
  | x :: xs =>
    if key x ∈ seen then dedupeByAux key seen xs
    else x :: dedupeByAux key (key x :: seen) xs

/-- `[...new Set(l)]`: first-occurrence deduplication by exact equality. -/
def dedupeExact {α : Type} [DecidableEq α] (l : List α) : List α :=
  dedupeByAux id [] l

/-- Key used by `removeDuplicateEmails`: `email.toLowerCase().trim()`. -/
def normKey (s : String) : String :=
  ⟨jsTrimList (jsToLowerList s.data)⟩

/-- `removeDuplicateEmails` from `emailUtils.ts`: a `filter` that keeps an
element iff its normalized key has not been seen before. -/
def removeDuplicateEmails (emails : List String) : List String :=
  dedupeByAux normKey [] emails

/-! ### `extractEmailsFromHTML` -/

/-- `ScrapingOptions` from `types.ts`; `filterPattern?: RegExp` is
modelled as an optional predicate (`RegExp.test`). -/
structure ScrapingOptions where
  includeDuplicates : Bool
  filterPattern : Option (String → Bool)

def defaultScrapingOptions : ScrapingOptions :=
  ⟨false, none⟩

/-- A JavaScript argument that is either an actual string or some
non-string value (`undefined`, `null`, a number, …). -/
inductive JsInput where
  | str (s : String)
  | notAString

/-- Body of the `try` block of `extractEmailsFromHTML`.  The thrown
`Error('Invalid HTML content provided')` is an `Except.error`; the guard
`!htmlContent || typeof htmlContent !== 'string'` fires on non-strings and
on the empty string. -/
def extractBody (htmlContent : JsInput) (options : ScrapingOptions) :
    Except String (List String) :=
  match htmlContent with
  | .notAString => .error "Invalid HTML content provided"
  | .str s =>
    if s = "" then .error "Invalid HTML content provided"
    else
      let ms := scanEmails s.data
      let emails : List String :=
        if ms.isEmpty then []
        else
          let es :=
            (ms.map fun m => (⟨jsToLowerList (jsTrimList m)⟩ : String)).filter
              fun e => strictEmailMatch e.data
          let es := if !options.includeDuplicates then dedupeExact es else es
          match options.filterPattern with
          | some p => es.filter p
          | none => es
      .ok emails

/-- `extractEmailsFromHTML`: the surrounding `catch` converts any thrown
error into `{ emails: [] }`. -/
def extractEmailsFromHTML (htmlContent : JsInput)
    (options : ScrapingOptions) : List String :=
  match extractBody htmlContent options with
  | .ok es => es
  | .error _ => []

/-! ### Clipboard utilities -/

structure ClipboardOptions where
  separator : String
  includeHeaders : Bool

/-- Caller-supplied `Partial<ClipboardOptions>`. -/
structure PartialClipboardOptions where
  separator : Option String
  includeHeaders : Option Bool

def DEFAULT_CLIPBOARD_OPTIONS : ClipboardOptions :=
  ⟨",", false⟩

/-- `{ ...DEFAULT_CLIPBOARD_OPTIONS, ...options }`. -/
def mergeClipboardOptions (p : PartialClipboardOptions) : ClipboardOptions :=
  ⟨p.separator.getD DEFAULT_CLIPBOARD_OPTIONS.separator,
   p.includeHeaders.getD DEFAULT_CLIPBOARD_OPTIONS.includeHeaders⟩

/-- `Array.prototype.join(sep)`. -/
def joinStrings (sep : String) : List String → String
  | [] => ""
  | [s] => s
  | s :: ss => s ++ sep ++ joinStrings sep ss

/-- `formatEmailsForClipboard` from the clipboard utilities. -/
def formatEmailsForClipboard (emails : List String)
    (options : PartialClipboardOptions) : String :=
  if emails.isEmpty then ""
  else
    let config := mergeClipboardOptions options
    let uniqueEmails := dedupeExact emails
    let header :=
      if config.includeHeaders then
        "Emails found (" ++ toString uniqueEmails.length ++ "):\n"
      else ""
    header ++ joinStrings config.separator uniqueEmails

/-- `copyToClipboard`: the actual write (Clipboard API or the `execCommand`
fallback) is an external collaborator, abstracted by `clipboardOk`; the
code itself only adds the `!text` guard, whose thrown error is caught and
becomes `false`. -/
def copyToClipboard (text : String) (clipboardOk : Bool) : Bool :=
  if text = "" then false else clipboardOk

structure CopyResult where
  success : Bool
  message : String

/-- `copyEmailsToClipboard`. -/
def copyEmailsToClipboard (emails : List String)
    (options : PartialClipboardOptions) (clipboardOk : Bool) : CopyResult :=
  if emails.isEmpty then ⟨false, "No emails to copy"⟩
  else
    let formattedText := formatEmailsForClipboard emails options
    if copyToClipboard formattedText clipboardOk then
      ⟨true,
        toString emails.length ++ " email" ++
          (if emails.length = 1 then "" else "s") ++ " copied to clipboard!"⟩
    else ⟨false, "Failed to copy to clipboard. Please try again."⟩

/-! ### JavaScript `String.prototype.split` (used to state the
round-trip property) -/

/-- Index of the first occurrence of `sep` in `l`, if any. -/
def findSub (sep : List Char) : List Char → Option Nat
  | [] => if sep.isPrefixOf ([] : List Char) then some 0 else none
  | c :: rest =>
    if sep.isPrefixOf (c :: rest) then some 0
    else (findSub sep rest).map (· + 1)

/-- Splitting on a nonempty separator `c0 :: s'`: cut at the leftmost
occurrence and continue after it.  Each step consumes at least
`s'.length + 1 ≥ 1` characters, so `fuel = l.length` suffices. -/
def splitGoAux (c0 : Char) (s' : List Char) : Nat → List Char → List (List Char)
  | 0, l => [l]
  | fuel + 1, l =>
    match findSub (c0 :: s') l with
    | none => [l]
    | some i => l.take i :: splitGoAux c0 s' fuel (l.drop (i + (s'.length + 1)))

def splitGo (c0 : Char) (s' : List Char) (l : List Char) : List (List Char) :=
  splitGoAux c0 s' l.length l

/-- `s.split(sep)`: with an empty separator JavaScript splits into single
characters (`"".split("")` is `[]`); otherwise it cuts at each leftmost
occurrence. -/
def jsSplit (s sep : String) : List String :=
  match sep.data with
  | [] => s.data.map fun c => (⟨[c]⟩ : String)
  | c0 :: s' => (splitGo c0 s' s.data).map fun l => (⟨l⟩ : String)

/-- Character-level `join` (used to reason about `joinStrings`). -/
def joinList (sep : List Char) : List (List Char) → List Char
  | [] => []
  | [p] => p
  | p :: ps => p ++ sep ++ joinList sep ps

/-! ## Helper lemmas -/

theorem ne_nil_of_isEmpty_eq_false {α : Type} {l : List α}
    (h : l.isEmpty = false) : l ≠ [] := by
  cases l <;> simp_all

theorem isEmpty_eq_false_of_ne_nil {α : Type} {l : List α}
    (h : l ≠ []) : l.isEmpty = false := by
  cases l <;> simp_all

theorem takeWhile_all_append (p : Char → Bool) (xs : List Char) (y : Char)
    (ys : List Char) (hxs : ∀ x ∈ xs, p x = true) (hy : p y = false) :
    (xs ++ y :: ys).takeWhile p = xs := by
  induction xs with
  | nil => simp [List.takeWhile_cons, hy]
  | cons a as ih =>
      have ha : p a = true := hxs a (List.mem_cons_self a as)
      simp only [List.cons_append, List.takeWhile_cons, ha, if_true]
      rw [ih fun x hx => hxs x (List.mem_cons_of_mem a hx)]

theorem dropWhile_all_append (p : Char → Bool) (xs : List Char) (y : Char)
    (ys : List Char) (hxs : ∀ x ∈ xs, p x = true) (hy : p y = false) :
    (xs ++ y :: ys).dropWhile p = y :: ys := by
  induction xs with
  | nil => simp [List.dropWhile_cons, hy]
  | cons a as ih =>
      have ha : p a = true := hxs a (List.mem_cons_self a as)
      simp only [List.cons_append, List.dropWhile_cons, ha, if_true]
      exact ih fun x hx => hxs x (List.mem_cons_of_mem a hx)

theorem dropWhile_eq_self_of_all {p : Char → Bool} {l : List Char}
    (h : ∀ c ∈ l, p c = false) : l.dropWhile p = l := by
  cases l with
  | nil => rfl
  | cons a as =>
      have ha : p a = false := h a (List.mem_cons_self a as)
      simp [List.dropWhile_cons, ha]

theorem jsTrimList_eq_self {l : List Char}
    (h : ∀ c ∈ l, isJsSpace c = false) : jsTrimList l = l := by
  unfold jsTrimList
  rw [dropWhile_eq_self_of_all h,
      dropWhile_eq_self_of_all fun c hc => h c (List.mem_reverse.mp hc),
      List.reverse_reverse]

/-- Characters from any of the regex classes (or the two literals of the
pattern) are not JavaScript whitespace. -/
theorem isJsSpace_eq_false_of_class {c : Char}
    (h : isL c = true ∨ isD c = true ∨ c.isAlpha = true ∨ c = '@' ∨ c = '.') :
    isJsSpace c = false := by
  cases hs : isJsSpace c with
  | false => rfl
  | true =>
      exfalso
      have hmem : c ∈ jsWhitespace := of_decide_eq_true hs
      fin_cases hmem <;> revert h <;> decide

/-! ## The strict regex versus the spec grammar -/

/-- Modelled from the spec (§4.1 step 3): a string satisfies the strict
grammar iff it decomposes as `loc ++ "@" ++ dom ++ "." ++ tld` with a
nonempty local part from the allowed class, a nonempty domain from the
domain class, and a final label of at least two letters.  Exactly one `@`
is enforced because none of the classes contains `@`, and `tld` is the
final label because it contains no dot. -/
def specStrictGrammar (l : List Char) : Prop :=
  ∃ loc dom tld : List Char,
    l = loc ++ '@' :: (dom ++ '.' :: tld) ∧
    loc ≠ [] ∧ (∀ c ∈ loc, isL c = true) ∧
    dom ≠ [] ∧ (∀ c ∈ dom, isD c = true) ∧
    2 ≤ tld.length ∧ ∀ c ∈ tld, c.isAlpha = true

theorem strictEmailMatch_iff (l : List Char) :
    strictEmailMatch l = true ↔ specStrictGrammar l := by
  constructor
  · intro h
    unfold strictEmailMatch at h
    cases hdw : l.dropWhile isL with
    | nil => rw [hdw] at h; exact absurd h (by simp)
    | cons c rest =>
        rw [hdw] at h
        simp only [Bool.and_eq_true, beq_iff_eq, Bool.not_eq_true'] at h
        obtain ⟨⟨hc, hne⟩, hdm⟩ := h
        have hsplit : l.takeWhile isL ++ c :: rest = l := by
          rw [← hdw, List.takeWhile_append_dropWhile]
        rw [domainMatch, List.any_eq_true] at hdm
        obtain ⟨k, _, hsp⟩ := hdm
        cases hdk : rest.drop k with
        | nil => rw [hdk] at hsp; exact absurd hsp (by simp [domSplitOk])
        | cons c2 t =>
            rw [hdk] at hsp
            simp only [domSplitOk, Bool.and_eq_true, beq_iff_eq,
              Bool.not_eq_true', List.all_eq_true, decide_eq_true_eq] at hsp
            obtain ⟨⟨⟨⟨hc2, hdne⟩, hdall⟩, htall⟩, htlen⟩ := hsp
            have hrest : rest = rest.take k ++ '.' :: t := by
              conv_lhs => rw [← List.take_append_drop k rest]
              rw [hdk, hc2]
            refine ⟨l.takeWhile isL, rest.take k, t, ?_, ?_, ?_, ?_, ?_, htlen, htall⟩
            · calc l = l.takeWhile isL ++ c :: rest := hsplit.symm
                _ = l.takeWhile isL ++ '@' :: (rest.take k ++ '.' :: t) := by
                    rw [hc, ← hrest]
            · exact ne_nil_of_isEmpty_eq_false hne
            · exact fun x hx => List.mem_takeWhile_imp hx
            · exact ne_nil_of_isEmpty_eq_false hdne
            · exact hdall
  · rintro ⟨loc, dom, tld, rfl, hlne, hlall, hdne, hdall, htlen, htall⟩
    have h2 : (loc ++ '@' :: (dom ++ '.' :: tld)).dropWhile isL =
        '@' :: (dom ++ '.' :: tld) :=
      dropWhile_all_append isL loc '@' (dom ++ '.' :: tld) hlall (by decide)
    have h1 : (loc ++ '@' :: (dom ++ '.' :: tld)).takeWhile isL = loc :=
      takeWhile_all_append isL loc '@' (dom ++ '.' :: tld) hlall (by decide)
    unfold strictEmailMatch
    rw [h2]
    simp only [h1, Bool.and_eq_true, beq_iff_eq, Bool.not_eq_true']
    refine ⟨⟨trivial, isEmpty_eq_false_of_ne_nil hlne⟩, ?_⟩
    rw [domainMatch, List.any_eq_true]
    refine ⟨dom.length, ?_, ?_⟩
    · rw [List.mem_range]
      simp only [List.length_append, List.length_cons]
      omega
    · rw [List.take_left, List.drop_left]
      simp only [domSplitOk, Bool.and_eq_true, beq_iff_eq,
        Bool.not_eq_true', List.all_eq_true, decide_eq_true_eq]
      exact ⟨⟨⟨⟨trivial, isEmpty_eq_false_of_ne_nil hdne⟩, hdall⟩, htall⟩, htlen⟩

/-- Strings built from the grammar classes contain no whitespace, so
`trim` leaves them unchanged. -/
theorem grammar_string_no_space {loc dom tld : List Char}
    (hl : ∀ c ∈ loc, isL c = true) (hd : ∀ c ∈ dom, isD c = true)
    (ht : ∀ c ∈ tld, c.isAlpha = true) :
    ∀ c ∈ loc ++ '@' :: (dom ++ '.' :: tld), isJsSpace c = false := by
  intro c hc
  simp only [List.mem_append, List.mem_cons] at hc
  rcases hc with h | rfl | h | rfl | h
  · exact isJsSpace_eq_false_of_class (Or.inl (hl c h))
  · exact isJsSpace_eq_false_of_class (Or.inr (Or.inr (Or.inr (Or.inl rfl))))
  · exact isJsSpace_eq_false_of_class (Or.inr (Or.inl (hd c h)))
  · exact isJsSpace_eq_false_of_class (Or.inr (Or.inr (Or.inr (Or.inr rfl))))
  · exact isJsSpace_eq_false_of_class (Or.inr (Or.inr (Or.inl (ht c h))))

/-- Any string assembled from the grammar passes `isValidEmail`. -/
theorem isValidEmail_of_grammar (loc dom tld : List Char)
    (hlne : loc ≠ []) (hl : ∀ c ∈ loc, isL c = true)
    (hdne : dom ≠ []) (hd : ∀ c ∈ dom, isD c = true)
    (htlen : 2 ≤ tld.length) (ht : ∀ c ∈ tld, c.isAlpha = true) :
    isValidEmail ⟨loc ++ '@' :: (dom ++ '.' :: tld)⟩ = true := by
  have hne : (⟨loc ++ '@' :: (dom ++ '.' :: tld)⟩ : String) ≠ "" := by
    intro he
    have hdata : loc ++ '@' :: (dom ++ '.' :: tld) = [] :=
      congrArg String.data he
    simp at hdata
  unfold isValidEmail
  rw [if_neg hne]
  show strictEmailMatch (jsTrimList (loc ++ '@' :: (dom ++ '.' :: tld))) = true
  rw [jsTrimList_eq_self (grammar_string_no_space hl hd ht)]
  exact (strictEmailMatch_iff _).mpr
    ⟨loc, dom, tld, rfl, hlne, hl, hdne, hd, htlen, ht⟩

/-! ## Deduplication lemmas -/

theorem dedupeByAux_subset {α β : Type} [DecidableEq β] {key : α → β}
    {seen : List β} {l : List α} {x : α}
    (h : x ∈ dedupeByAux key seen l) : x ∈ l := by
  induction l generalizing seen with
  | nil => simp [dedupeByAux] at h
  | cons a as ih =>
      by_cases hk : key a ∈ seen
      · rw [dedupeByAux, if_pos hk] at h
        exact List.mem_cons_of_mem a (ih h)
      · rw [dedupeByAux, if_neg hk, List.mem_cons] at h
        rcases h with rfl | h
        · exact List.mem_cons_self x as
        · exact List.mem_cons_of_mem a (ih h)

theorem dedupeByAux_key_not_seen {α β : Type} [DecidableEq β] {key : α → β}
    {seen : List β} {l : List α} {x : α}
    (h : x ∈ dedupeByAux key seen l) : key x ∉ seen := by
  induction l generalizing seen with
  | nil => simp [dedupeByAux] at h
  | cons a as ih =>
      by_cases hk : key a ∈ seen
      · rw [dedupeByAux, if_pos hk] at h
        exact ih h
      · rw [dedupeByAux, if_neg hk, List.mem_cons] at h
        rcases h with rfl | h
        · exact hk
        · exact fun hs => ih h (List.mem_cons_of_mem (key a) hs)

theorem dedupeByAux_pairwise {α β : Type} [DecidableEq β] (key : α → β)
    (seen : List β) (l : List α) :
    (dedupeByAux key seen l).Pairwise fun a b => key a ≠ key b := by
  induction l generalizing seen with
  | nil => exact List.Pairwise.nil
  | cons a as ih =>
      by_cases hk : key a ∈ seen
      · rw [dedupeByAux, if_pos hk]
        exact ih seen
      · rw [dedupeByAux, if_neg hk]
        refine List.Pairwise.cons ?_ (ih (key a :: seen))
        intro y hy hky
        exact dedupeByAux_key_not_seen hy (hky ▸ List.mem_cons_self (key a) seen)

theorem dedupeByAux_eq_self {α β : Type} [DecidableEq β] {key : α → β}
    {seen : List β} {l : List α}
    (h1 : ∀ x ∈ l, key x ∉ seen)
    (h2 : l.Pairwise fun a b => key a ≠ key b) :
    dedupeByAux key seen l = l := by
  induction l generalizing seen with
  | nil => rfl
  | cons a as ih =>
      have ha : key a ∉ seen := h1 a (List.mem_cons_self a as)
      rw [dedupeByAux, if_neg ha]
      rw [List.pairwise_cons] at h2
      congr 1
      refine ih ?_ h2.2
      intro x hx
      rw [List.mem_cons]
      rintro (hxa | hxs)
      · exact h2.1 x hx hxa.symm
      · exact h1 x (List.mem_cons_of_mem a hx) hxs

theorem dedupeByAux_length_le {α β : Type} [DecidableEq β] (key : α → β)
    (seen : List β) (l : List α) :
    (dedupeByAux key seen l).length ≤ l.length := by
  induction l generalizing seen with
  | nil => simp [dedupeByAux]
  | cons a as ih =>
      by_cases hk : key a ∈ seen
      · rw [dedupeByAux, if_pos hk]
        exact Nat.le_succ_of_le (ih seen)
      · rw [dedupeByAux, if_neg hk, List.length_cons, List.length_cons]
        exact Nat.succ_le_succ (ih (key a :: seen))

theorem dedupeByAux_length_lt_of_seen {α β : Type} [DecidableEq β]
    (key : α → β) (seen : List β) (l : List α)
    (h : ∃ y ∈ l, key y ∈ seen) :
    (dedupeByAux key seen l).length < l.length := by
  induction l generalizing seen with
  | nil => simp at h
  | cons a as ih =>
      obtain ⟨y, hy, hys⟩ := h
      by_cases hk : key a ∈ seen
      · rw [dedupeByAux, if_pos hk, List.length_cons]
        exact Nat.lt_succ_of_le (dedupeByAux_length_le key seen as)
      · rw [dedupeByAux, if_neg hk, List.length_cons, List.length_cons]
        rw [List.mem_cons] at hy
        rcases hy with rfl | hy
        · exact absurd hys hk
        · exact Nat.succ_lt_succ
            (ih (key a :: seen) ⟨y, hy, List.mem_cons_of_mem (key a) hys⟩)

theorem dedupeByAux_id_length_lt {α : Type} [DecidableEq α]
    (seen : List α) (l : List α) (h : ¬ l.Nodup) :
    (dedupeByAux id seen l).length < l.length := by
  induction l generalizing seen with
  | nil => exact absurd List.nodup_nil h
  | cons a as ih =>
      by_cases hmem : a ∈ as
      · by_cases hk : id a ∈ seen
        · rw [dedupeByAux, if_pos hk, List.length_cons]
          exact Nat.lt_succ_of_le (dedupeByAux_length_le id seen as)
        · rw [dedupeByAux, if_neg hk, List.length_cons, List.length_cons]
          exact Nat.succ_lt_succ (dedupeByAux_length_lt_of_seen id (id a :: seen)
            as ⟨a, hmem, List.mem_cons_self (id a) seen⟩)
      · have hnd : ¬ as.Nodup := by
          intro hnd
          exact h (List.nodup_cons.mpr ⟨hmem, hnd⟩)
        by_cases hk : id a ∈ seen
        · rw [dedupeByAux, if_pos hk, List.length_cons]
          exact Nat.lt_succ_of_lt (ih seen hnd)
        · rw [dedupeByAux, if_neg hk, List.length_cons, List.length_cons]
          exact Nat.succ_lt_succ (ih (id a :: seen) hnd)

theorem dedupeExact_nodup {α : Type} [DecidableEq α] (l : List α) :
    (dedupeExact l).Nodup :=
  dedupeByAux_pairwise id [] l

theorem dedupeExact_length_lt {α : Type} [DecidableEq α] (l : List α)
    (h : ¬ l.Nodup) : (dedupeExact l).length < l.length :=
  dedupeByAux_id_length_lt [] l h

theorem dedupeExact_ne_nil {α : Type} [DecidableEq α] {l : List α}
    (h : l ≠ []) : dedupeExact l ≠ [] := by
  cases l with
  | nil => exact absurd rfl h
  | cons a as => simp [dedupeExact, dedupeByAux]

/-! ## Split/join round-trip lemmas -/

theorem isPrefixOf_append_self (s t : List Char) :
    s.isPrefixOf (s ++ t) = true := by
  induction s with
  | nil => simp [List.isPrefixOf]
  | cons a as ih => simp [List.isPrefixOf, ih]

theorem findSub_none_of_head_not_mem {c0 : Char} {s' p : List Char}
    (h : c0 ∉ p) : findSub (c0 :: s') p = none := by
  induction p with
  | nil => rfl
  | cons a as ih =>
      have hpre : (c0 :: s').isPrefixOf (a :: as) = false := by
        cases hp : (c0 :: s').isPrefixOf (a :: as) with
        | false => rfl
        | true =>
            exfalso
            simp only [List.isPrefixOf, Bool.and_eq_true, beq_iff_eq] at hp
            exact h (hp.1 ▸ List.mem_cons_self a as)
      rw [findSub, hpre]
      simp only [Bool.false_eq_true, if_false]
      rw [ih fun hm => h (List.mem_cons_of_mem a hm)]
      rfl

theorem findSub_append_sep {c0 : Char} (s' : List Char) {p : List Char}
    (r : List Char) (h : c0 ∉ p) :
    findSub (c0 :: s') (p ++ (c0 :: s') ++ r) = some p.length := by
  induction p with
  | nil =>
      rw [List.nil_append]
      have hpre : (c0 :: s').isPrefixOf ((c0 :: s') ++ r) = true :=
        isPrefixOf_append_self (c0 :: s') r
      rw [List.cons_append] at hpre ⊢
      rw [findSub, hpre]
      rfl
  | cons a as ih =>
      have hca : c0 ≠ a := fun he => h (he ▸ List.mem_cons_self a as)
      have hpre : (c0 :: s').isPrefixOf (a :: (as ++ (c0 :: s') ++ r)) = false := by
        cases hp : (c0 :: s').isPrefixOf (a :: (as ++ (c0 :: s') ++ r)) with
        | false => rfl
        | true =>
            exfalso
            simp only [List.isPrefixOf, Bool.and_eq_true, beq_iff_eq] at hp
            exact hca hp.1
      rw [List.cons_append, List.cons_append, findSub, hpre]
      simp only [Bool.false_eq_true, if_false]
      rw [ih fun hm => h (List.mem_cons_of_mem a hm)]
      rfl

theorem splitGoAux_succ_none {c0 : Char} {s' l : List Char} (f : Nat)
    (h : findSub (c0 :: s') l = none) :
    splitGoAux c0 s' (f + 1) l = [l] := by
  rw [splitGoAux, h]

theorem splitGoAux_succ_some {c0 : Char} {s' l : List Char} (f : Nat)
    {i : Nat} (h : findSub (c0 :: s') l = some i) :
    splitGoAux c0 s' (f + 1) l =
      l.take i :: splitGoAux c0 s' f (l.drop (i + (s'.length + 1))) := by
  rw [splitGoAux, h]

theorem splitGoAux_joinList (c0 : Char) (s' : List Char) :
    ∀ (ps : List (List Char)) (fuel : Nat), ps ≠ [] →
      (∀ p ∈ ps, c0 ∉ p) →
      (joinList (c0 :: s') ps).length ≤ fuel →
      splitGoAux c0 s' fuel (joinList (c0 :: s') ps) = ps := by
  intro ps
  induction ps with
  | nil => intro fuel h; exact absurd rfl h
  | cons p qs ih =>
      intro fuel _ hdisj hfuel
      cases qs with
      | nil =>
          have hnp : c0 ∉ p := hdisj p (List.mem_cons_self p [])
          cases fuel with
          | zero => rfl
          | succ f =>
              exact splitGoAux_succ_none f (findSub_none_of_head_not_mem hnp)
      | cons q rest =>
          have hnp : c0 ∉ p := hdisj p (List.mem_cons_self p (q :: rest))
          have hjoin : joinList (c0 :: s') (p :: q :: rest) =
              p ++ (c0 :: s') ++ joinList (c0 :: s') (q :: rest) := rfl
          rw [hjoin] at hfuel ⊢
          have hlen : (p ++ (c0 :: s') ++ joinList (c0 :: s') (q :: rest)).length =
              p.length + (s'.length + 1) + (joinList (c0 :: s') (q :: rest)).length := by
            simp [List.length_append]
            omega
          cases fuel with
          | zero => rw [hlen] at hfuel; omega
          | succ f =>
              rw [splitGoAux_succ_some f (findSub_append_sep s'
                (joinList (c0 :: s') (q :: rest)) hnp)]
              have htake : (p ++ (c0 :: s') ++ joinList (c0 :: s') (q :: rest)).take
                  p.length = p := by
                rw [List.append_assoc]
                exact List.take_left p ((c0 :: s') ++ joinList (c0 :: s') (q :: rest))
              have hdrop : (p ++ (c0 :: s') ++ joinList (c0 :: s') (q :: rest)).drop
                  (p.length + (s'.length + 1)) = joinList (c0 :: s') (q :: rest) := by
                have hl : (p ++ (c0 :: s')).length = p.length + (s'.length + 1) := by
                  simp [List.length_append]
                rw [← hl]
                exact List.drop_left (p ++ (c0 :: s')) (joinList (c0 :: s') (q :: rest))
              rw [htake, hdrop]
              congr 1
              refine ih f (fun hqe => List.noConfusion hqe)
                (fun x hx => hdisj x (List.mem_cons_of_mem p hx)) ?_
              rw [hlen] at hfuel
              omega

theorem data_joinStrings (sep : String) :
    ∀ ss : List String,
      (joinStrings sep ss).data = joinList sep.data (ss.map String.data) := by
  intro ss
  induction ss with
  | nil => rfl
  | cons s ss2 ih =>
      cases ss2 with
      | nil => rfl
      | cons s2 ss3 =>
          show (s ++ sep ++ joinStrings sep (s2 :: ss3)).data =
            s.data ++ sep.data ++ joinList sep.data ((s2 :: ss3).map String.data)
          rw [String.data_append, String.data_append, ih]

/-- `formatEmailsForClipboard` on a nonempty list unfolds to the header
followed by the join of the exactly-deduplicated emails. -/
theorem formatEmailsForClipboard_eq {emails : List String}
    (options : PartialClipboardOptions) (h : emails ≠ []) :
    formatEmailsForClipboard emails options =
      (if (mergeClipboardOptions options).includeHeaders then
        "Emails found (" ++ toString (dedupeExact emails).length ++ "):\n"
      else "") ++
        joinStrings (mergeClipboardOptions options).separator
          (dedupeExact emails) := by
  rw [formatEmailsForClipboard, isEmpty_eq_false_of_ne_nil h]
  rfl

theorem empty_string_append (s : String) : "" ++ s = s := by
  apply String.ext
  rw [String.data_append]
  rfl

theorem jsSplit_cons (s sep : String) (c0 : Char) (s2 : List Char)
    (h : sep.data = c0 :: s2) :
    jsSplit s sep = (splitGo c0 s2 s.data).map fun l => (⟨l⟩ : String) := by
  rw [jsSplit, h]

/-! ## Claim theorems -/

/-- C1: `extract` on the content `"Contact: Jane@Example.com,
jane@example.com, not-an-email, bob@sub.example.co.uk"` with default
options (no duplicates, no filter) returns exactly
`["jane@example.com", "bob@sub.example.co.uk"]`, in that order. -/
theorem extract_default_content_eq :
    extractEmailsFromHTML
      (.str "Contact: Jane@Example.com, jane@example.com, not-an-email, bob@sub.example.co.uk")
      defaultScrapingOptions =
      ["jane@example.com", "bob@sub.example.co.uk"] := by
  decide

/-- C2 counterexample: `" a@b.co "` does not satisfy the strict grammar
(its local part would have to contain a space) yet `isValidEmail` accepts
it, because `isValidEmail` trims before testing; and `"a@ .co"`, built as
`local@domain.tld` with a valid local part and a two-letter tld but a
domain outside the domain class, is rejected. -/
theorem isValidEmail_strict_grammar_counterexample :
    (isValidEmail " a@b.co " = true ∧ ¬ specStrictGrammar (" a@b.co ".data)) ∧
      isValidEmail "a@ .co" = false :=
  ⟨⟨by decide, fun hg => absurd ((strictEmailMatch_iff _).mpr hg) (by decide)⟩,
    by decide⟩

/-- C2 (amended): for every string whose trimmed form does not satisfy the
strict grammar, `isValidEmail` is false; and every string assembled as
`local@domain.tld` with a nonempty local part from the allowed class, a
nonempty domain from the domain class and a tld of at least two letters is
accepted. -/
theorem isValidEmail_matches_strict_grammar :
    (∀ s : String, ¬ specStrictGrammar (jsTrimList s.data) →
      isValidEmail s = false) ∧
    (∀ loc dom tld : List Char, loc ≠ [] → (∀ c ∈ loc, isL c = true) →
      dom ≠ [] → (∀ c ∈ dom, isD c = true) →
      2 ≤ tld.length → (∀ c ∈ tld, c.isAlpha = true) →
      isValidEmail ⟨loc ++ '@' :: (dom ++ '.' :: tld)⟩ = true) := by
  constructor
  · intro s hg
    by_cases hs : s = ""
    · rw [isValidEmail, if_pos hs]
    · rw [isValidEmail, if_neg hs]
      cases hb : strictEmailMatch (jsTrimList s.data) with
      | false => rfl
      | true => exact absurd ((strictEmailMatch_iff _).mp hb) hg
  · exact fun loc dom tld h1 h2 h3 h4 h5 h6 =>
      isValidEmail_of_grammar loc dom tld h1 h2 h3 h4 h5 h6

theorem isValidEmail_matches_strict_grammar_witness :
    isValidEmail "not-an-email" = false ∧
      isValidEmail ⟨['a'] ++ '@' :: (['b'] ++ '.' :: ['c', 'o'])⟩ = true :=
  ⟨isValidEmail_matches_strict_grammar.1 "not-an-email"
      (fun hg => absurd ((strictEmailMatch_iff _).mpr hg) (by decide)),
    isValidEmail_matches_strict_grammar.2 ['a'] ['b'] ['c', 'o']
      (by decide) (by decide) (by decide) (by decide) (by decide) (by decide)⟩

/-- C3: `removeDuplicateEmails` keeps first-occurrence order, compares
case-insensitively, keeps the first-seen casing and drops the later
case-duplicate. -/
theorem removeDuplicateEmails_first_casing_kept :
    removeDuplicateEmails ["A@x.com", "a@x.com", "B@y.com"] =
      ["A@x.com", "B@y.com"] := by
  decide

/-- C4 counterexample: with `includeDuplicates: true` the original casing
`"Jane@Example.com"` does not appear in the output — every candidate is
lower-cased before the duplicate decision. -/
theorem extract_includeDuplicates_counterexample :
    "Jane@Example.com" ∉
      extractEmailsFromHTML
        (.str "Contact: Jane@Example.com, jane@example.com, not-an-email, bob@sub.example.co.uk")
        ⟨true, none⟩ := by
  decide

/-- C4 (amended): with `includeDuplicates: true` both occurrences of the
jane address are retained, but both in normalized lower case. -/
theorem extract_includeDuplicates_lowercased :
    extractEmailsFromHTML
      (.str "Contact: Jane@Example.com, jane@example.com, not-an-email, bob@sub.example.co.uk")
      ⟨true, none⟩ =
      ["jane@example.com", "jane@example.com", "bob@sub.example.co.uk"] := by
  decide

/-- C5: `removeDuplicateEmails` is idempotent. -/
theorem removeDuplicateEmails_idempotent (xs : List String) :
    removeDuplicateEmails (removeDuplicateEmails xs) =
      removeDuplicateEmails xs :=
  dedupeByAux_eq_self (fun x _ => List.not_mem_nil (normKey x))
    (dedupeByAux_pairwise normKey [] xs)

/-- C6: `formatEmailsForClipboard` yields `""` on empty input; on nonempty
input it keeps exactly the exact-string-deduplicated emails (no two
identical literal strings survive), prefixed by the `"Emails found (N):"`
header plus newline when `includeHeaders` is set, joined by the separator;
and the concrete example formats as claimed. -/
theorem formatEmailsForClipboard_spec :
    (∀ options, formatEmailsForClipboard [] options = "") ∧
    (∀ (emails : List String) options, emails ≠ [] →
      formatEmailsForClipboard emails options =
        (if (mergeClipboardOptions options).includeHeaders then
          "Emails found (" ++ toString (dedupeExact emails).length ++ "):\n"
        else "") ++
          joinStrings (mergeClipboardOptions options).separator
            (dedupeExact emails) ∧
      (dedupeExact emails).Nodup) ∧
    formatEmailsForClipboard ["a@x.com", "b@y.com"] ⟨some ", ", some true⟩ =
      "Emails found (2):\na@x.com, b@y.com" :=
  ⟨fun _ => rfl,
    fun emails options h =>
      ⟨formatEmailsForClipboard_eq options h, dedupeExact_nodup emails⟩,
    by decide⟩

theorem formatEmailsForClipboard_spec_witness :
    formatEmailsForClipboard ["x@y.zz", "x@y.zz"] ⟨none, none⟩ = "x@y.zz" ∧
      (dedupeExact (["x@y.zz", "x@y.zz"] : List String)).Nodup := by
  have h := formatEmailsForClipboard_spec.2.1 ["x@y.zz", "x@y.zz"] ⟨none, none⟩
    (fun he => List.noConfusion he)
  exact ⟨h.1.trans (by decide), h.2⟩

/-- C7: `extract` on a non-string argument returns the empty sequence; the
thrown guard error is caught inside the function, so the caller always
receives a plain list. -/
theorem extract_non_string_empty :
    ∀ options, extractEmailsFromHTML JsInput.notAString options = [] :=
  fun _ => rfl

/-- C8 counterexample: with `includeHeaders: true` the header is glued to
the first email, so splitting by the separator does not reproduce the
deduplicated input even though the separator occurs in no email. -/
theorem roundtrip_split_format_counterexample :
    findSub ", ".data "a@x.com".data = none ∧
      jsSplit (formatEmailsForClipboard ["a@x.com"] ⟨some ", ", some true⟩)
        ", " ≠ dedupeExact ["a@x.com"] := by
  decide

/-- C8 (amended): for a nonempty email list, `includeHeaders` off and a
nonempty separator none of whose characters occurs in any email, splitting
the formatted payload by the separator reproduces exactly the
exact-string-deduplicated input list. -/
theorem roundtrip_split_format (emails : List String)
    (options : PartialClipboardOptions) (hne : emails ≠ [])
    (hh : (mergeClipboardOptions options).includeHeaders = false)
    (hsep : (mergeClipboardOptions options).separator ≠ "")
    (hdisj : ∀ c ∈ (mergeClipboardOptions options).separator.data,
      ∀ e ∈ emails, c ∉ e.data) :
    jsSplit (formatEmailsForClipboard emails options)
      (mergeClipboardOptions options).separator = dedupeExact emails := by
  obtain ⟨c0, s2, hsd⟩ : ∃ c0 s2,
      (mergeClipboardOptions options).separator.data = c0 :: s2 := by
    cases hd : (mergeClipboardOptions options).separator.data with
    | nil =>
        exfalso
        apply hsep
        apply String.ext
        rw [hd]
    | cons c0 s2 => exact ⟨c0, s2, rfl⟩
  have hfmt : formatEmailsForClipboard emails options =
      joinStrings (mergeClipboardOptions options).separator
        (dedupeExact emails) := by
    rw [formatEmailsForClipboard_eq options hne, hh]
    simp only [Bool.false_eq_true, if_false]
    exact empty_string_append _
  have hdata : (joinStrings (mergeClipboardOptions options).separator
      (dedupeExact emails)).data =
      joinList (c0 :: s2) ((dedupeExact emails).map String.data) := by
    rw [data_joinStrings, hsd]
  have hps : (dedupeExact emails).map String.data ≠ [] := fun h =>
    dedupeExact_ne_nil hne (List.map_eq_nil_iff.mp h)
  have hdisj2 : ∀ p ∈ (dedupeExact emails).map String.data, c0 ∉ p := by
    intro p hp
    obtain ⟨e, he, rfl⟩ := List.mem_map.mp hp
    exact hdisj c0 (by rw [hsd]; exact List.mem_cons_self c0 s2) e
      (dedupeByAux_subset he)
  rw [hfmt, jsSplit_cons _ _ c0 s2 hsd, splitGo, hdata,
    splitGoAux_joinList c0 s2 ((dedupeExact emails).map String.data) _
      hps hdisj2 (Nat.le_refl _)]
  rw [List.map_map]
  exact List.map_id' (dedupeExact emails)

theorem roundtrip_split_format_witness :
    jsSplit (formatEmailsForClipboard ["a@x.com", "b@y.com", "a@x.com"]
      ⟨some ", ", some false⟩) ", " = ["a@x.com", "b@y.com"] := by
  have h := roundtrip_split_format ["a@x.com", "b@y.com", "a@x.com"]
    ⟨some ", ", some false⟩ (fun he => List.noConfusion he) rfl
    (by decide) (by decide)
  exact h.trans (by decide)

/-- C9 counterexample: the strict regex accepts mixed case, so direct use
of `isValidEmail` on a mixed-case email returns `true`, not `false`. -/
theorem isValidEmail_mixed_case_counterexample :
    isValidEmail "Jane@Example.com" = true := by
  decide

/-- C9 (amended): the character classes of the strict grammar include both
cases, so mixed-case input that fits the grammar is accepted by direct use
of `isValidEmail` — no prior lower-casing by the caller is needed. -/
theorem isValidEmail_accepts_mixed_case (loc dom tld : List Char)
    (_hup : ∃ c ∈ loc ++ '@' :: (dom ++ '.' :: tld), c.isUpper = true)
    (hlne : loc ≠ []) (hl : ∀ c ∈ loc, isL c = true)
    (hdne : dom ≠ []) (hd : ∀ c ∈ dom, isD c = true)
    (htlen : 2 ≤ tld.length) (ht : ∀ c ∈ tld, c.isAlpha = true) :
    isValidEmail ⟨loc ++ '@' :: (dom ++ '.' :: tld)⟩ = true :=
  isValidEmail_of_grammar loc dom tld hlne hl hdne hd htlen ht

theorem isValidEmail_accepts_mixed_case_witness :
    isValidEmail ⟨['J', 'a', 'n', 'e'] ++ '@' ::
      (['E', 'x', 'a', 'm', 'p', 'l', 'e'] ++ '.' :: ['c', 'o', 'm'])⟩ =
      true :=
  isValidEmail_accepts_mixed_case ['J', 'a', 'n', 'e']
    ['E', 'x', 'a', 'm', 'p', 'l', 'e'] ['c', 'o', 'm']
    ⟨'J', by decide, by decide⟩ (by decide) (by decide) (by decide)
    (by decide) (by decide) (by decide)

/-- C10: on the success path the reported count is the length of the input
list, while the clipboard payload joins only the exact-string-deduplicated
emails — strictly fewer than the reported count whenever the input has
exact duplicates. -/
theorem copyEmailsToClipboard_count (emails : List String)
    (options : PartialClipboardOptions) (clipboardOk : Bool)
    (hne : emails ≠ [])
    (hsucc : (copyEmailsToClipboard emails options clipboardOk).success = true) :
    (copyEmailsToClipboard emails options clipboardOk).message =
      toString emails.length ++ " email" ++
        (if emails.length = 1 then "" else "s") ++ " copied to clipboard!" ∧
    formatEmailsForClipboard emails options =
      (if (mergeClipboardOptions options).includeHeaders then
        "Emails found (" ++ toString (dedupeExact emails).length ++ "):\n"
      else "") ++
        joinStrings (mergeClipboardOptions options).separator
          (dedupeExact emails) ∧
    (¬ emails.Nodup → (dedupeExact emails).length < emails.length) := by
  refine ⟨?_, formatEmailsForClipboard_eq options hne,
    fun h => dedupeExact_length_lt emails h⟩
  simp only [copyEmailsToClipboard, isEmpty_eq_false_of_ne_nil hne,
    Bool.false_eq_true, if_false] at hsucc ⊢
  cases hc : copyToClipboard (formatEmailsForClipboard emails options)
      clipboardOk with
  | false =>
      rw [hc] at hsucc
      simp at hsucc
  | true => simp

theorem copyEmailsToClipboard_count_witness :
    (copyEmailsToClipboard ["a@x.com", "a@x.com"] ⟨none, none⟩ true).message =
      "2 emails copied to clipboard!" ∧
    (dedupeExact (["a@x.com", "a@x.com"] : List String)).length < 2 := by
  have h := copyEmailsToClipboard_count ["a@x.com", "a@x.com"] ⟨none, none⟩
    true (fun he => List.noConfusion he) (by decide)
  exact ⟨h.1.trans (by decide), h.2.2 (by decide)⟩

end Srcubmail
